import Mathlib

/-!
Verification of the git repository abstraction layer
(`crates/git/src/repository.rs` and companions).

Strings from the Rust sources are modelled as `List Char`; Rust
`Option`/`Result` become `Option`/`Except String-as-List-Char`; the
external `git` subprocess and the libgit2 object database are modelled
as explicit oracles passed to the embedded functions.
-/

deriving instance DecidableEq for Except

namespace ZedGit

abbrev Str := List Char

/-! ## String utilities (models of Rust `str` methods) -/

/-- Model of Rust `str::split(char)`: always returns at least one piece. -/
def splitOnChar (c : Char) : List Char → List (List Char)
  | [] => [[]]
  | x :: xs =>
    match splitOnChar c xs with
    | [] => if x = c then [[], []] else [[x]]
    | cur :: rest => if x = c then [] :: cur :: rest else (x :: cur) :: rest

/-- Model of Rust `str::strip_prefix`. -/
def stripPfx (p l : Str) : Option Str :=
  if p.isPrefixOf l then some (l.drop p.length) else none

/-- Model of Rust `str::strip_suffix`. -/
def stripSfx (s l : Str) : Option Str :=
  if s.isSuffixOf l then some (l.take (l.length - s.length)) else none

/-- Model of Rust `str::trim` (whitespace from both ends). -/
def rustTrim (l : Str) : Str :=
  ((l.dropWhile Char.isWhitespace).reverse.dropWhile Char.isWhitespace).reverse

/-- Strip one trailing carriage return, as Rust `str::lines` does per line. -/
def stripCR (l : Str) : Str :=
  if l.getLast? = some '\r' then l.dropLast else l

/-- Model of Rust `str::lines`: split at `\n`, final line ending optional,
trailing `\r` stripped from each line. -/
def rustLines (s : Str) : List Str :=
  if s = [] then []
  else
    let parts := splitOnChar '\n' s
    let parts := if parts.getLast? = some [] then parts.dropLast else parts
    parts.map stripCR

/-! ## Decimal integer parsing (models of Rust `FromStr` for `u32`/`i64`) -/

def charDigit (c : Char) : Nat := c.toNat - 48

/-- Digits-only decimal value; `none` on empty input or any non-digit. -/
def parseNatDigits (l : List Char) : Option Nat :=
  if l = [] then none
  else if l.all Char.isDigit then
    some (l.foldl (fun a c => 10 * a + charDigit c) 0)
  else none

/-- Model of `"…".parse::<u32>()`: optional leading `+`, decimal digits,
value must fit in 32 bits. -/
def parseU32 (l : List Char) : Option Nat :=
  match l with
  | [] => none
  | c :: rest =>
    let digitsPart := if c = '+' then rest else c :: rest
    (parseNatDigits digitsPart).bind fun n =>
      if n < 2 ^ 32 then some n else none

/-- Model of `"…".parse::<i64>()`: optional sign, decimal digits,
value must fit in a signed 64-bit integer. -/
def parseI64 (l : List Char) : Option Int :=
  match l with
  | [] => none
  | c :: rest =>
    if c = '+' then
      (parseNatDigits rest).bind fun n =>
        if n ≤ 2 ^ 63 - 1 then some (n : Int) else none
    else if c = '-' then
      (parseNatDigits rest).bind fun n =>
        if n ≤ 2 ^ 63 then some (-(n : Int)) else none
    else
      (parseNatDigits (c :: rest)).bind fun n =>
        if n ≤ 2 ^ 63 - 1 then some (n : Int) else none

def digitChar (m : Nat) : Char := Char.ofNat (48 + m)

/-- Decimal rendering of a natural number (digit list). -/
def natToChars (n : Nat) : List Char :=
  if _h : n < 10 then [digitChar n]
  else natToChars (n / 10) ++ [digitChar (n % 10)]
termination_by n
decreasing_by exact Nat.div_lt_self (by omega) (by omega)

/-- Decimal rendering of an integer. -/
def intToChars (i : Int) : List Char :=
  if i < 0 then '-' :: natToChars i.natAbs else natToChars i.toNat

/-- Model of Rust `str::split(", ")`, specialised to the two-character
separator used by `parse_upstream_track`: matches are found left to
right and are non-overlapping. -/
def splitCommaSpace : List Char → List (List Char)
  | [] => [[]]
  | [x] => [[x]]
  | x :: y :: xs =>
    if x = ',' ∧ y = ' ' then [] :: splitCommaSpace xs
    else
      match splitCommaSpace (y :: xs) with
      | [] => [[x]]
      | cur :: rest => (x :: cur) :: rest

/-- `true` iff the list contains `", "` as a contiguous sublist. -/
def hasCommaSpace : List Char → Bool
  | x :: y :: xs => (decide (x = ',' ∧ y = ' ')) || hasCommaSpace (y :: xs)
  | _ => false

/-- Join pieces with a separator (inverse of the split functions). -/
def joinSep (sep : Str) : List Str → Str
  | [] => []
  | [x] => x
  | x :: y :: xs => x ++ sep ++ joinSep sep (y :: xs)

/-! ## Data model (from `repository.rs`) -/

structure UpstreamTrackingStatus where
  ahead : Nat
  behind : Nat
deriving DecidableEq, Repr

inductive UpstreamTracking where
  /-- Remote ref not present in local repository. -/
  | Gone : UpstreamTracking
  /-- Remote ref present in local repository (fetched from remote). -/
  | Tracked : UpstreamTrackingStatus → UpstreamTracking
deriving DecidableEq, Repr

structure Upstream where
  ref_name : Str
  tracking : UpstreamTracking
deriving DecidableEq, Repr

structure CommitSummary where
  sha : Str
  subject : Str
  commit_timestamp : Int
  has_parent : Bool
deriving DecidableEq, Repr

structure Branch where
  is_head : Bool
  name : Str
  upstream : Option Upstream
  most_recent_commit : Option CommitSummary
deriving DecidableEq, Repr

structure RemoteCommandOutput where
  stdout : Str
  stderr : Str
deriving DecidableEq, Repr

/-! ## `parse_upstream_track` (repository.rs:1337-1368) -/

/-- The component loop of `parse_upstream_track`: `gone` returns
immediately; an `ahead `/`behind ` prefix forces a `u32` parse of the
remainder (hard error on failure); anything else leaves the counters
unchanged. -/
def trackLoop (comps : List Str) (ahead behind : Nat) : Except Str UpstreamTracking :=
  match comps with
  | [] => .ok (.Tracked ⟨ahead, behind⟩)
  | comp :: rest =>
    if comp = "gone".toList then .ok .Gone
    else
      match stripPfx "ahead ".toList comp with
      | some numStr =>
        match parseU32 numStr with
        | some v =>
          match stripPfx "behind ".toList comp with
          | some numStr2 =>
            match parseU32 numStr2 with
            | some w => trackLoop rest v w
            | none => .error "invalid digit".toList
          | none => trackLoop rest v behind
        | none => .error "invalid digit".toList
      | none =>
        match stripPfx "behind ".toList comp with
        | some numStr2 =>
          match parseU32 numStr2 with
          | some w => trackLoop rest ahead w
          | none => .error "invalid digit".toList
        | none => trackLoop rest ahead behind

/-- Model of `parse_upstream_track` (repository.rs:1337). -/
def parse_upstream_track (upstream_track : Str) : Except Str UpstreamTracking :=
  if upstream_track = [] then
    .ok (.Tracked ⟨0, 0⟩)
  else
    match stripPfx "[".toList upstream_track with
    | none => .error "missing [".toList
    | some noPre =>
      match stripSfx "]".toList noPre with
      | none => .error "missing [".toList
      | some body => trackLoop (splitCommaSpace body) 0 0

/-! ## `parse_branch_input` (repository.rs:1288-1335) -/

/-- Model of `fields.next().context(msg)?` over the field iterator. -/
def nextField (fields : List Str) (msg : Str) : Except Str (Str × List Str) :=
  match fields with
  | [] => .error msg
  | f :: rest => .ok (f, rest)

/-- Parse one non-empty record of the `for-each-ref` output
(the loop body of `parse_branch_input`). -/
def parseBranchLine (line : Str) : Except Str Branch := do
  let fields := splitOnChar '\x00' line
  let (head_field, fields) ← nextField fields "no HEAD".toList
  let is_current_branch : Bool := head_field = "*".toList
  let (head_sha, fields) ← nextField fields "no objectname".toList
  let (parent_sha, fields) ← nextField fields "no parent".toList
  let (refname_raw, fields) ← nextField fields "no refname".toList
  let ref_name ← match stripPfx "refs/heads/".toList refname_raw with
    | some s => Except.ok s
    | none => Except.error "unexpected format for refname".toList
  let (upstream_name, fields) ← nextField fields "no upstream".toList
  let (track_raw, fields) ← nextField fields "no upstream:track".toList
  let upstream_tracking ← parse_upstream_track track_raw
  let (date_raw, fields) ← nextField fields "no committerdate".toList
  let commiterdate ← match parseI64 date_raw with
    | some t => Except.ok t
    | none => Except.error "invalid digit".toList
  let (subject, _) ← nextField fields "no contents:subject".toList
  return { is_head := is_current_branch
           name := ref_name
           most_recent_commit := some
             { sha := head_sha
               subject := subject
               commit_timestamp := commiterdate
               has_parent := !parent_sha.isEmpty }
           upstream :=
             if upstream_name.isEmpty then none
             else some { ref_name := upstream_name, tracking := upstream_tracking } }

/-- The line loop of `parse_branch_input`: empty lines are skipped, the
first failing record aborts the whole batch. -/
def parseBranchLines : List Str → Except Str (List Branch)
  | [] => .ok []
  | l :: ls =>
    if l = [] then parseBranchLines ls
    else do
      let b ← parseBranchLine l
      let bs ← parseBranchLines ls
      return b :: bs

/-- Model of `parse_branch_input` (repository.rs:1288). -/
def parse_branch_input (input : Str) : Except Str (List Branch) :=
  parseBranchLines (splitOnChar '\n' input)

/-! ## `run_remote_command` (repository.rs:895-927) -/

def REMOTE_CANCELLED_BY_USER : Str := "Operation cancelled by user".toList

inductive AskPassResult where
  | CancelledByUser : AskPassResult
  | Timedout : AskPassResult
deriving DecidableEq, Repr

/-- The resolved value of `git_process.output()`: exit status plus
captured standard output/error. -/
structure ChildOutput where
  status : Nat
  stdout : Str
  stderr : Str
deriving DecidableEq, Repr

/-- Which side of the `select_biased!` race resolved first, together
with its payload.  The subprocess side carries `Except` because
collecting the child's output can itself fail (`output?` in the
source). -/
inductive RaceWinner where
  | askpass : AskPassResult → RaceWinner
  | process : Except Str ChildOutput → RaceWinner
deriving DecidableEq, Repr

/-- Model of `run_remote_command` (repository.rs:895): classify the
single race outcome.  `select_biased!` guarantees exactly one branch
runs, and the function is invoked once per remote operation — there is
no retry. -/
def run_remote_command (winner : RaceWinner) : Except Str RemoteCommandOutput :=
  match winner with
  | .askpass .CancelledByUser => .error REMOTE_CANCELLED_BY_USER
  | .askpass .Timedout => .error "Connecting to host timed out".toList
  | .process (.error e) => .error e
  | .process (.ok output) =>
    if output.status ≠ 0 then
      .error ("Operation failed:\n".toList ++ output.stderr)
    else
      .ok { stdout := output.stdout, stderr := output.stderr }

/-! ## `check_for_pushed_commit` (repository.rs:846-892)

The external `git` binary is modelled as an oracle mapping an argument
list to the `Result<String>` produced by the `git_cmd` closure. -/

abbrev GitCmd := List Str → Except Str Str

/-- Model of `anyhow`'s `.context(msg)`. -/
def withContext (msg : Str) (r : Except Str Str) : Except Str Str :=
  match r with
  | .ok s => .ok s
  | .error e => .error (msg ++ ": ".toList ++ e)

/-- Model of the `add_if_matching` closure: run `merge-base`, and when
it equals local HEAD, report the candidate stripped of its
`refs/remotes/` prefix (silently skipping candidates without that
prefix). -/
def addIfMatching (gitCmd : GitCmd) (head : Str) (acc : List Str) (remoteHead : Str) :
    List Str :=
  match gitCmd ["merge-base".toList, head, remoteHead] with
  | .error _ => acc
  | .ok mergeBase =>
    if rustTrim mergeBase = head then
      match stripPfx "refs/remotes/".toList remoteHead with
      | some s => acc ++ [s]
      | none => acc
    else acc

/-- Model of `check_for_pushed_commit` (repository.rs:846). -/
def check_for_pushed_commit (gitCmd : GitCmd) : Except Str (List Str) := do
  let headRaw ← withContext "Failed to get HEAD".toList
    (gitCmd ["rev-parse".toList, "HEAD".toList])
  let head := rustTrim headRaw
  let remotes ← withContext "Failed to get remotes".toList (gitCmd ["remote".toList])
  let afterMain := (rustLines remotes).foldl
    (fun acc remote =>
      match gitCmd ["symbolic-ref".toList,
                    "refs/remotes/".toList ++ remote ++ "/HEAD".toList] with
      | .ok remoteHead => addIfMatching gitCmd head acc (rustTrim remoteHead)
      | .error _ => acc)
    []
  let final :=
    match gitCmd ["rev-parse".toList, "--symbolic-full-name".toList, "@{u}".toList] with
    | .ok remoteHead => addIfMatching gitCmd head afterMain (rustTrim remoteHead)
    | .error _ => afterMain
  return final

/-- A concrete git world used to instantiate the oracle: local HEAD,
remote names, each remote's symbolic HEAD, merge-bases, and the
tracked upstream of the current branch. -/
structure PushWorld where
  head : Str
  remotes : List Str
  remoteHead : Str → Option Str
  mergeBase : Str → Str → Option Str
  upstream : Option Str

/-- Recover the remote name from a `refs/remotes/<r>/HEAD` argument. -/
def extractRemote (arg : Str) : Str :=
  (arg.drop 13).take ((arg.drop 13).length - 5)

/-- The oracle induced by a `PushWorld`: dispatches on the exact
argument lists `check_for_pushed_commit` issues. -/
def worldCmd (w : PushWorld) (args : List Str) : Except Str Str :=
  match args with
  | [a] =>
    if a = "remote".toList then .ok (joinSep ['\n'] w.remotes)
    else .error "unknown command".toList
  | [a, b] =>
    if a = "rev-parse".toList then
      if b = "HEAD".toList then .ok w.head else .error "unknown command".toList
    else if a = "symbolic-ref".toList then
      match w.remoteHead (extractRemote b) with
      | some s => .ok s
      | none => .error "not a symbolic ref".toList
    else .error "unknown command".toList
  | [a, b, c] =>
    if a = "merge-base".toList then
      match w.mergeBase b c with
      | some m => .ok m
      | none => .error "no merge base".toList
    else if a = "rev-parse".toList ∧ b = "--symbolic-full-name".toList ∧ c = "@{u}".toList then
      match w.upstream with
      | some u => .ok u
      | none => .error "no upstream".toList
    else .error "unknown command".toList
  | _ => .error "unknown command".toList

/-- The remote "main branch" candidates the loop over `git remote`
reports, in remote enumeration order. -/
def mainBranchMatches (w : PushWorld) : List Str :=
  w.remotes.filterMap fun r =>
    match w.remoteHead r with
    | none => none
    | some rh =>
      match w.mergeBase w.head rh with
      | none => none
      | some mb =>
        if mb = w.head then stripPfx "refs/remotes/".toList rh else none

/-- The candidates the final upstream step reports. -/
def upstreamMatches (w : PushWorld) : List Str :=
  match w.upstream with
  | none => []
  | some rh =>
    match w.mergeBase w.head rh with
    | none => []
    | some mb =>
      if mb = w.head then
        match stripPfx "refs/remotes/".toList rh with
        | some s => [s]
        | none => []
      else []

/-- Well-formedness of a `PushWorld`: all oracle outputs are already
whitespace-trimmed, and remote names are proper single lines. -/
def PushWorld.WF (w : PushWorld) : Prop :=
  rustTrim w.head = w.head ∧
  (∀ r ∈ w.remotes, r ≠ [] ∧ '\n' ∉ r ∧ r.getLast? ≠ some '\r') ∧
  (∀ r s, w.remoteHead r = some s → rustTrim s = s) ∧
  (∀ a b s, w.mergeBase a b = some s → rustTrim s = s) ∧
  (∀ s, w.upstream = some s → rustTrim s = s)

/-! ## `branches` (repository.rs:530-588) -/

/-- Captured output of one `std::process::Command` invocation. -/
structure ProcOutput where
  status : Nat
  stdout : Str
  stderr : Str
deriving DecidableEq, Repr

/-- Model of `RealGitRepository::branches`: the two subprocess
invocations (`for-each-ref` and the `symbolic-ref` fallback) are given
as oracles; spawn failures surface through the outer `Except`. -/
def branches (forEachRef : Except Str ProcOutput) (symbolicRef : Except Str ProcOutput) :
    Except Str (List Branch) := do
  let output ← forEachRef
  if output.status ≠ 0 then
    Except.error ("Failed to git git branches:\n".toList ++ output.stderr)
  else do
    let bs ← parse_branch_input output.stdout
    if bs.isEmpty then do
      let output2 ← symbolicRef
      if output2.status = 0 then
        let name := rustTrim output2.stdout
        return [{ name := name, is_head := true, upstream := none,
                  most_recent_commit := none }]
      else
        return bs
    else
      return bs

/-! ## Path model: `check_path_to_repo_path_errors` (repository.rs:1169-1196),
`RepoPath` ordering and `RepoPathDescendants` (repository.rs:1275-1286)

`std::path::Path::components` is modelled with Unix rules: a leading
`/` is the root; `.` segments are dropped except as the very first
component; empty segments (repeated separators) are dropped.  The
`Prefix` component exists only on Windows, so the parser never
produces it, but the checker's match arm for it is still embedded. -/

inductive PathComp where
  | prefixComp : Str → PathComp
  | rootDir : PathComp
  | curDir : PathComp
  | parentDir : PathComp
  | normal : Str → PathComp
deriving DecidableEq, Repr, BEq

/-- Unix model of `Path::components().collect()`. -/
def pathComponents (p : Str) : List PathComp :=
  if p = [] then []
  else
    let hasRoot := p.head? = some '/'
    let rawSegs := splitOnChar '/' p
    let segs := rawSegs.filter fun s => ¬s = [] ∧ ¬s = ['.']
    let comps := segs.map fun s => if s = ['.', '.'] then PathComp.parentDir else .normal s
    if hasRoot then PathComp.rootDir :: comps
    else if rawSegs.head? = some ['.'] then PathComp.curDir :: comps
    else comps

/-- Model of `Path::components().next()`. -/
def firstComponent (p : Str) : Option PathComp :=
  (pathComponents p).head?

/-- The match of `check_path_to_repo_path_errors`, exposed over the
first component so that the (Windows-only) `Prefix` arm is statable. -/
def checkFirstComp (p : Str) : Option PathComp → Except Str Unit
  | none => .error "repo path should not be empty".toList
  | some (.prefixComp _) =>
    .error ("repo path `".toList ++ p ++ "` should be relative, not a windows prefix".toList)
  | some .rootDir => .error ("repo path `".toList ++ p ++ "` should be relative".toList)
  | some .curDir => .error ("repo path `".toList ++ p ++ "` should not start with `.`".toList)
  | some .parentDir => .error ("repo path `".toList ++ p ++ "` should not start with `..`".toList)
  | some (.normal _) => .ok ()

/-- Model of `check_path_to_repo_path_errors` (repository.rs:1169). -/
def check_path_to_repo_path_errors (p : Str) : Except Str Unit :=
  checkFirstComp p (firstComponent p)

/-- Ordering on components, matching the derived `Ord` for
`std::path::Component` (Prefix < RootDir < CurDir < ParentDir <
Normal, normal segments byte-compared). -/
def compRank : PathComp → Nat
  | .prefixComp _ => 0
  | .rootDir => 1
  | .curDir => 2
  | .parentDir => 3
  | .normal _ => 4

def strCmp : Str → Str → Ordering
  | [], [] => .eq
  | [], _ :: _ => .lt
  | _ :: _, [] => .gt
  | a :: as, b :: bs =>
    if a.toNat < b.toNat then .lt
    else if b.toNat < a.toNat then .gt
    else strCmp as bs

def compCmp (a b : PathComp) : Ordering :=
  match a, b with
  | .normal x, .normal y => strCmp x y
  | .prefixComp x, .prefixComp y => strCmp x y
  | _, _ =>
    if compRank a < compRank b then .lt
    else if compRank b < compRank a then .gt
    else .eq

def compsCmp : List PathComp → List PathComp → Ordering
  | [], [] => .eq
  | [], _ :: _ => .lt
  | _ :: _, [] => .gt
  | a :: as, b :: bs =>
    match compCmp a b with
    | .eq => compsCmp as bs
    | o => o

/-- Model of the derived `Ord` on `RepoPath` (component-wise
comparison inherited from `std::path::Path`). -/
def repoPathCmp (p q : Str) : Ordering :=
  compsCmp (pathComponents p) (pathComponents q)

/-- Model of `Path::starts_with`: component-wise prefix. -/
def pathStartsWith (p base : Str) : Bool :=
  (pathComponents base).isPrefixOf (pathComponents p)

/-- Model of `RepoPathDescendants::cmp_cursor` (repository.rs:1279):
keys having the target as ancestor compare greater, so a seek lands on
the first descendant. -/
def cmpCursor (target : Str) (key : Str) : Ordering :=
  if pathStartsWith key target then .gt
  else repoPathCmp target key

/-! ## `load_index_text` / `load_committed_text` (repository.rs:388-422)

The libgit2 object database is modelled as oracles: the index
(`repo.index()` may fail, entries carry a file mode and blob id), the
peeled HEAD tree, and the blob store (`find_blob` plus UTF-8 decoding
may fail, hence `Option`). -/

def GIT_MODE_SYMLINK : Nat := 0o120000

structure IndexEntry where
  mode : Nat
  oid : Nat
deriving DecidableEq, Repr

structure TreeEntry where
  filemode : Nat
  oid : Nat
deriving DecidableEq, Repr

structure RepoOracle where
  /-- `repo.index()`: `none` models the fallible acquisition failing. -/
  index : Option (Str → Option IndexEntry)
  /-- `head.peel_to_tree()` after `repo.head()`: `none` when HEAD is
  absent or peeling fails. -/
  headTree : Option (Str → Option TreeEntry)
  /-- `repo.find_blob(oid)` content, already UTF-8 decoded; `none`
  when the blob is missing or not valid UTF-8. -/
  blobs : Nat → Option Str

/-- The inner `logic` closure of `load_index_text`. -/
def loadIndexLogic (st : RepoOracle) (path : Str) : Except Str (Option Str) := do
  let idx ← match st.index with
    | some idx => Except.ok idx
    | none => Except.error "could not open index".toList
  let _ ← check_path_to_repo_path_errors path
  match idx path with
  | some entry =>
    if entry.mode ≠ GIT_MODE_SYMLINK then
      match st.blobs entry.oid with
      | some content => return some content
      | none => Except.error "could not load blob".toList
    else
      return none
  | none => return none

/-- Model of `RealGitRepository::load_index_text` (repository.rs:388):
any error from the inner logic is logged and collapsed to `None`. -/
def load_index_text (st : RepoOracle) (path : Str) : Option Str :=
  match loadIndexLogic st path with
  | .ok value => value
  | .error _ => none

/-- Model of `RealGitRepository::load_committed_text`
(repository.rs:412): every fallible step short-circuits to `None`. -/
def load_committed_text (st : RepoOracle) (path : Str) : Option Str :=
  match st.headTree with
  | none => none
  | some tree =>
    match tree path with
    | none => none
    | some entry =>
      if entry.filemode = GIT_MODE_SYMLINK then none
      else st.blobs entry.oid

/-! ## `FakeGitRepository::set_index_text` (repository.rs:982-1002)

The fake backend's `HashMap<RepoPath, String>` is modelled as a
function `Str → Option Str`; the change-notification channel as an
accumulating event list. -/

structure FakeGitRepositoryState where
  path : Str
  index_contents : Str → Option Str
  simulated_index_write_error_message : Option Str
  events : List Str

/-- Model of `FakeGitRepository::set_index_text`: returns the call's
result together with the state after the call. -/
def set_index_text (st : FakeGitRepositoryState) (path : Str) (content : Option Str) :
    Except Str Unit × FakeGitRepositoryState :=
  match st.simulated_index_write_error_message with
  | some message => (.error message, st)
  | none =>
    let index' : Str → Option Str :=
      match content with
      | some c => fun p => if p = path then some c else st.index_contents p
      | none => fun p => if p = path then none else st.index_contents p
    (.ok (), { st with index_contents := index', events := st.events ++ [st.path] })

/-! ## `CommitDetails::short_sha` (repository.rs:131-135) -/

/-- Modelled from the spec: `SHORT_SHA_LENGTH` is declared in a crate
root that is not among the provided sources; the spec says
`CommitDetails` "derives a fixed-length short SHA", so it is embedded
as an arbitrary fixed constant. -/
def SHORT_SHA_LENGTH : Nat := 7

/-- Model of `CommitDetails::short_sha`: `self.sha[..SHORT_SHA_LENGTH]`
panics when the slice exceeds the string; the panic is modelled as
`none` (the claim concerns ASCII hex SHAs, where bytes coincide with
characters). -/
def short_sha (sha : Str) : Option Str :=
  if SHORT_SHA_LENGTH ≤ sha.length then some (sha.take SHORT_SHA_LENGTH) else none

/-! ## Lemmas about the string utilities -/

theorem splitOnChar_ne_nil (c : Char) (l : List Char) : splitOnChar c l ≠ [] := by
  induction l with
  | nil => simp [splitOnChar]
  | cons x xs ih =>
    simp only [splitOnChar]
    split <;> split <;> simp

theorem splitOnChar_of_not_mem {c : Char} {l : List Char} (h : c ∉ l) :
    splitOnChar c l = [l] := by
  induction l with
  | nil => rfl
  | cons x xs ih =>
    simp only [List.mem_cons, not_or] at h
    simp only [splitOnChar, ih h.2]
    rw [if_neg (fun hx => h.1 hx.symm)]

theorem splitOnChar_append {c : Char} {a : List Char} (b : List Char) (h : c ∉ a) :
    splitOnChar c (a ++ c :: b) = a :: splitOnChar c b := by
  induction a with
  | nil =>
    simp only [List.nil_append, splitOnChar]
    cases hb : splitOnChar c b with
    | nil => exact absurd hb (splitOnChar_ne_nil c b)
    | cons cur rest => simp
  | cons x a' ih =>
    simp only [List.mem_cons, not_or] at h
    simp only [List.cons_append, splitOnChar, List.append_eq, ih h.2]
    rw [if_neg (fun hx => h.1 hx.symm)]

theorem splitOnChar_joinSep {c : Char} :
    ∀ fs : List Str, fs ≠ [] → (∀ f ∈ fs, c ∉ f) →
      splitOnChar c (joinSep [c] fs) = fs
  | [], h, _ => absurd rfl h
  | [x], _, hmem => by
    simp only [joinSep]
    exact splitOnChar_of_not_mem (hmem x (by simp))
  | x :: y :: xs, _, hmem => by
    have hx : c ∉ x := hmem x (by simp)
    have : joinSep [c] (x :: y :: xs) = x ++ c :: joinSep [c] (y :: xs) := by
      simp [joinSep]
    rw [this, splitOnChar_append _ hx,
      splitOnChar_joinSep (y :: xs) (by simp) (fun f hf => hmem f (List.mem_cons_of_mem x hf))]

theorem stripPfx_append (p r : Str) : stripPfx p (p ++ r) = some r := by
  unfold stripPfx
  rw [if_pos, List.drop_left]
  exact List.isPrefixOf_iff_prefix.mpr (List.prefix_append p r)

theorem stripPfx_eq_some {p l r : Str} (h : stripPfx p l = some r) :
    p.isPrefixOf l = true := by
  unfold stripPfx at h
  by_cases hp : p.isPrefixOf l
  · exact hp
  · simp [hp] at h

theorem stripPfx_eq_none_of_ne_head (a : Char) (p' : Str) (b : Char) (l' : Str)
    (hne : a ≠ b) :
    stripPfx (a :: p') (b :: l') = none := by
  unfold stripPfx
  rw [if_neg]
  simp only [List.isPrefixOf, Bool.and_eq_true, beq_iff_eq]
  intro hc
  exact hne (by simpa using hc.1)

theorem stripSfx_append (r s : Str) : stripSfx s (r ++ s) = some r := by
  unfold stripSfx
  rw [if_pos]
  · congr 1
    rw [List.length_append, Nat.add_sub_cancel, List.take_left]
  · exact List.isSuffixOf_iff_suffix.mpr (List.suffix_append r s)

theorem hasCommaSpace_eq_false_of_not_mem {l : List Char} (h : ',' ∉ l) :
    hasCommaSpace l = false := by
  induction l with
  | nil => rfl
  | cons x xs ih =>
    simp only [List.mem_cons, not_or] at h
    cases xs with
    | nil => rfl
    | cons y ys =>
      simp only [hasCommaSpace, Bool.or_eq_false_iff]
      refine ⟨?_, ih h.2⟩
      simp only [decide_eq_false_iff_not]
      intro hc
      exact h.1 hc.1.symm

theorem splitCommaSpace_of_no_sep {l : List Char} (h : hasCommaSpace l = false) :
    splitCommaSpace l = [l] := by
  induction l with
  | nil => rfl
  | cons x xs ih =>
    cases xs with
    | nil => rfl
    | cons y ys =>
      simp only [hasCommaSpace, Bool.or_eq_false_iff, decide_eq_false_iff_not] at h
      simp only [splitCommaSpace, if_neg h.1, ih h.2]

/-! ## Lemmas about decimal rendering and parsing -/

theorem digitChar_isDigit : ∀ m < 10, (digitChar m).isDigit = true := by decide

theorem charDigit_digitChar : ∀ m < 10, charDigit (digitChar m) = m := by decide

theorem natToChars_ne_nil (n : Nat) : natToChars n ≠ [] := by
  unfold natToChars
  split <;> simp

theorem natToChars_all_digit (n : Nat) : ∀ c ∈ natToChars n, c.isDigit = true := by
  induction n using Nat.strong_induction_on with
  | _ n ih =>
    by_cases h : n < 10
    · rw [natToChars, dif_pos h]
      intro c hc
      simp only [List.mem_singleton] at hc
      exact hc ▸ digitChar_isDigit n h
    · rw [natToChars, dif_neg h]
      intro c hc
      rcases List.mem_append.mp hc with h1 | h2
      · exact ih (n / 10) (Nat.div_lt_self (by omega) (by omega)) c h1
      · simp only [List.mem_singleton] at h2
        exact h2 ▸ digitChar_isDigit (n % 10) (Nat.mod_lt n (by omega))

theorem not_mem_natToChars {ch : Char} (h : ch.isDigit = false) (n : Nat) :
    ch ∉ natToChars n := fun hm => by
  rw [natToChars_all_digit n ch hm] at h
  cases h

theorem foldl_natToChars (n : Nat) :
    ∀ a, (natToChars n).foldl (fun a c => 10 * a + charDigit c) a =
      a * 10 ^ (natToChars n).length + n := by
  induction n using Nat.strong_induction_on with
  | _ n ih =>
    intro a
    by_cases h : n < 10
    · rw [natToChars, dif_pos h]
      simp [List.foldl, charDigit_digitChar n h, Nat.mul_comm]
    · rw [natToChars, dif_neg h]
      rw [List.foldl_append, ih (n / 10) (Nat.div_lt_self (by omega) (by omega)) a]
      simp only [List.foldl, List.length_append, List.length_singleton]
      rw [charDigit_digitChar (n % 10) (Nat.mod_lt n (by omega))]
      rw [pow_succ]
      have := Nat.div_add_mod n 10
      ring_nf
      omega

theorem parseNatDigits_natToChars (n : Nat) :
    parseNatDigits (natToChars n) = some n := by
  unfold parseNatDigits
  rw [if_neg (natToChars_ne_nil n), if_pos]
  · rw [foldl_natToChars n 0]
    simp
  · rw [List.all_eq_true]
    intro c hc
    exact natToChars_all_digit n c hc

theorem natToChars_head_digit (n : Nat) :
    ∃ d rest, natToChars n = d :: rest ∧ d.isDigit = true := by
  cases h : natToChars n with
  | nil => exact absurd h (natToChars_ne_nil n)
  | cons d rest =>
    exact ⟨d, rest, rfl, natToChars_all_digit n d (h ▸ List.mem_cons_self d rest)⟩

theorem parseU32_natToChars {n : Nat} (h : n < 2 ^ 32) :
    parseU32 (natToChars n) = some n := by
  obtain ⟨d, rest, heq, hd⟩ := natToChars_head_digit n
  rw [heq]
  simp only [parseU32]
  rw [if_neg (fun hc : d = '+' => by subst hc; cases hd)]
  rw [← heq, parseNatDigits_natToChars n]
  simp only [Option.bind]
  rw [if_pos h]

theorem parseI64_intToChars {i : Int} (hlo : -(2 ^ 63) ≤ i) (hhi : i ≤ 2 ^ 63 - 1) :
    parseI64 (intToChars i) = some i := by
  unfold intToChars
  by_cases hneg : i < 0
  · rw [if_pos hneg]
    simp only [parseI64]
    rw [if_neg (by decide : ¬('-' = '+'))]
    simp only [if_true]
    rw [parseNatDigits_natToChars]
    have hbound : i.natAbs ≤ 2 ^ 63 := by omega
    simp only [Option.bind, if_pos hbound]
    congr 1
    omega
  · rw [if_neg hneg]
    obtain ⟨d, rest, heq, hd⟩ := natToChars_head_digit i.toNat
    rw [heq]
    simp only [parseI64]
    rw [if_neg (fun hc : d = '+' => by subst hc; cases hd)]
    rw [if_neg (fun hc : d = '-' => by subst hc; cases hd)]
    rw [← heq, parseNatDigits_natToChars]
    have hbound : i.toNat ≤ 2 ^ 63 - 1 := by omega
    simp only [Option.bind, if_pos hbound]
    congr 1
    omega

theorem splitCommaSpace_append {a : List Char} (b : List Char)
    (h : hasCommaSpace a = false) :
    splitCommaSpace (a ++ ',' :: ' ' :: b) = a :: splitCommaSpace b := by
  induction a with
  | nil => simp [splitCommaSpace]
  | cons x a' ih =>
    cases a' with
    | nil =>
      simp only [List.cons_append, List.nil_append, splitCommaSpace]
      rw [if_neg (fun hx => absurd hx.2 (by decide))]
      simp [splitCommaSpace]
    | cons y a'' =>
      simp only [hasCommaSpace, Bool.or_eq_false_iff, decide_eq_false_iff_not] at h
      have := ih h.2
      simp only [List.cons_append, List.append_eq] at this ⊢
      simp only [splitCommaSpace, if_neg h.1, List.append_eq, this]

theorem joinSep_ne_nil {sep : Str} {r : Str} (rest : List Str) (hr : r ≠ []) :
    joinSep sep (r :: rest) ≠ [] := by
  cases rest with
  | nil => simpa [joinSep] using hr
  | cons y ys =>
    simp only [joinSep]
    exact List.append_ne_nil_of_left_ne_nil
      (List.append_ne_nil_of_left_ne_nil hr sep) _

theorem rustLines_joinSep (rs : List Str)
    (h : ∀ r ∈ rs, r ≠ [] ∧ '\n' ∉ r ∧ r.getLast? ≠ some '\r') :
    rustLines (joinSep ['\n'] rs) = rs := by
  cases rs with
  | nil => rfl
  | cons r rest =>
    have hne : joinSep ['\n'] (r :: rest) ≠ [] :=
      joinSep_ne_nil rest (h r (by simp)).1
    have hsplit : splitOnChar '\n' (joinSep ['\n'] (r :: rest)) = r :: rest :=
      splitOnChar_joinSep (r :: rest) (by simp) (fun f hf => (h f hf).2.1)
    unfold rustLines
    rw [if_neg hne]
    simp only [hsplit]
    rw [if_neg]
    · rw [List.map_congr_left (g := id) (fun a ha => by
        unfold stripCR
        rw [if_neg (h a ha).2.2]
        rfl)]
      exact List.map_id _
    · intro hlast
      have := List.mem_of_getLast?_eq_some hlast
      exact (h [] this).1 rfl

/-! ## Renderers: constructing a valid `for-each-ref` line from a `Branch` -/

/-- Render an upstream-tracking token that `git for-each-ref` could
emit for the given status. -/
def renderTrack : UpstreamTracking → Str
  | .Gone => "[gone]".toList
  | .Tracked s =>
    if s.ahead = 0 ∧ s.behind = 0 then []
    else "[ahead ".toList ++ natToChars s.ahead ++ ", behind ".toList ++
      natToChars s.behind ++ "]".toList

/-- Render one `for-each-ref` record (8 NUL-separated fields) for a
branch whose most recent commit is `c`; `parent` is the raw parent
field (non-empty iff the commit has a parent). -/
def renderLine (b : Branch) (c : CommitSummary) (parent : Str) : Str :=
  joinSep ['\x00']
    [ (if b.is_head then "*".toList else " ".toList)
    , c.sha
    , parent
    , "refs/heads/".toList ++ b.name
    , (match b.upstream with | none => [] | some u => u.ref_name)
    , (match b.upstream with | none => [] | some u => renderTrack u.tracking)
    , intToChars c.commit_timestamp
    , c.subject ]

/-- A string that can appear as a field: free of the NUL field
separator and the newline record separator. -/
def cleanStr (s : Str) : Prop := '\x00' ∉ s ∧ '\n' ∉ s

/-- Side conditions under which a tracking status is representable in
a `for-each-ref` token (`u32` counters). -/
def WFtracking : UpstreamTracking → Prop
  | .Gone => True
  | .Tracked s => s.ahead < 2 ^ 32 ∧ s.behind < 2 ^ 32

theorem parse_renderTrack {t : UpstreamTracking} (h : WFtracking t) :
    parse_upstream_track (renderTrack t) = .ok t := by
  cases t with
  | Gone => decide
  | Tracked s =>
    by_cases h0 : s.ahead = 0 ∧ s.behind = 0
    · obtain ⟨h1, h2⟩ := h0
      cases s
      simp only at h1 h2
      subst h1 h2
      rfl
    · obtain ⟨hA32, hB32⟩ := h
      set A := natToChars s.ahead with hAdef
      set B := natToChars s.behind with hBdef
      have hAd : ∀ ch, ch.isDigit = false → ch ∉ A := fun ch hch =>
        not_mem_natToChars hch s.ahead
      have hBd : ∀ ch, ch.isDigit = false → ch ∉ B := fun ch hch =>
        not_mem_natToChars hch s.behind
      have hexp : renderTrack (.Tracked s) =
          '[' :: ("ahead ".toList ++ (A ++ (", behind ".toList ++ (B ++ "]".toList)))) := by
        simp only [renderTrack, if_neg h0]
        simp [List.append_assoc]
      rw [hexp]
      unfold parse_upstream_track
      rw [if_neg (by simp)]
      have hpfx : stripPfx "[".toList
          ('[' :: ("ahead ".toList ++ (A ++ (", behind ".toList ++ (B ++ "]".toList))))) =
          some ("ahead ".toList ++ (A ++ (", behind ".toList ++ (B ++ "]".toList)))) :=
        stripPfx_append "[".toList _
      simp only [hpfx]
      have hre : "ahead ".toList ++ (A ++ (", behind ".toList ++ (B ++ "]".toList))) =
          ("ahead ".toList ++ (A ++ (", behind ".toList ++ B))) ++ "]".toList := by
        simp [List.append_assoc]
      rw [hre, show ("]".toList : Str) = [']'] from rfl]
      simp only [stripSfx_append]
      have hre2 : "ahead ".toList ++ (A ++ (", behind ".toList ++ B)) =
          ("ahead ".toList ++ A) ++ (',' :: ' ' :: ("behind ".toList ++ B)) := by
        simp [List.append_assoc]
      rw [hre2]
      have hnoCS : hasCommaSpace ("ahead ".toList ++ A) = false := by
        apply hasCommaSpace_eq_false_of_not_mem
        intro hmem
        rcases List.mem_append.mp hmem with hm | hm
        · exact absurd hm (by decide)
        · exact hAd ',' (by decide) hm
      rw [splitCommaSpace_append _ hnoCS]
      have hnoCS2 : hasCommaSpace ("behind ".toList ++ B) = false := by
        apply hasCommaSpace_eq_false_of_not_mem
        intro hmem
        rcases List.mem_append.mp hmem with hm | hm
        · exact absurd hm (by decide)
        · exact hBd ',' (by decide) hm
      rw [splitCommaSpace_of_no_sep hnoCS2]
      have hgone1 : ¬("ahead ".toList ++ A = "gone".toList) := by
        intro hEq
        have h' := congrArg (fun l => l.head?) hEq
        simp at h'
      have hgone2 : ¬("behind ".toList ++ B = "gone".toList) := by
        intro hEq
        have h' := congrArg (fun l => l.head?) hEq
        simp at h'
      have hsp1 : stripPfx "ahead ".toList ("ahead ".toList ++ A) = some A :=
        stripPfx_append _ _
      have hsp2 : stripPfx "behind ".toList ("ahead ".toList ++ A) = none :=
        stripPfx_eq_none_of_ne_head 'b' "ehind ".toList 'a' ("head ".toList ++ A)
          (by decide)
      have hsp3 : stripPfx "ahead ".toList ("behind ".toList ++ B) = none :=
        stripPfx_eq_none_of_ne_head 'a' "head ".toList 'b' ("ehind ".toList ++ B)
          (by decide)
      have hsp4 : stripPfx "behind ".toList ("behind ".toList ++ B) = some B :=
        stripPfx_append _ _
      simp only [trackLoop, if_neg hgone1, if_neg hgone2, hsp1, hsp2, hsp3, hsp4,
        parseU32_natToChars hA32, parseU32_natToChars hB32]

theorem natToChars_clean (n : Nat) : cleanStr (natToChars n) :=
  ⟨not_mem_natToChars (by decide) n, not_mem_natToChars (by decide) n⟩

theorem intToChars_clean (i : Int) : cleanStr (intToChars i) := by
  unfold intToChars
  by_cases hneg : i < 0
  · rw [if_pos hneg]
    constructor
    · intro hm
      rcases List.mem_cons.mp hm with hm | hm
      · cases hm
      · exact (natToChars_clean _).1 hm
    · intro hm
      rcases List.mem_cons.mp hm with hm | hm
      · cases hm
      · exact (natToChars_clean _).2 hm
  · rw [if_neg hneg]
    exact natToChars_clean _

theorem renderTrack_clean (t : UpstreamTracking) : cleanStr (renderTrack t) := by
  cases t with
  | Gone => exact ⟨by decide, by decide⟩
  | Tracked s =>
    by_cases h0 : s.ahead = 0 ∧ s.behind = 0
    · simp only [renderTrack, if_pos h0]
      exact ⟨by simp, by simp⟩
    · simp only [renderTrack, if_neg h0]
      constructor
      · intro hm
        simp only [List.mem_append] at hm
        rcases hm with (((hm | hm) | hm) | hm) | hm
        · exact absurd hm (by decide)
        · exact (natToChars_clean s.ahead).1 hm
        · exact absurd hm (by decide)
        · exact (natToChars_clean s.behind).1 hm
        · exact absurd hm (by decide)
      · intro hm
        simp only [List.mem_append] at hm
        rcases hm with (((hm | hm) | hm) | hm) | hm
        · exact absurd hm (by decide)
        · exact (natToChars_clean s.ahead).2 hm
        · exact absurd hm (by decide)
        · exact (natToChars_clean s.behind).2 hm
        · exact absurd hm (by decide)

theorem exceptBind_ok {eTy aTy bTy : Type} (a : aTy) (f : aTy → Except eTy bTy) :
    (Except.ok a >>= f) = f a := rfl

theorem exceptBind_err {eTy aTy bTy : Type} (e : eTy) (f : aTy → Except eTy bTy) :
    ((Except.error e : Except eTy aTy) >>= f) = Except.error e := rfl

theorem exceptPure {eTy aTy : Type} (a : aTy) :
    (pure a : Except eTy aTy) = Except.ok a := rfl

theorem not_mem_joinSep {ch c : Char} (hne : ch ≠ c) :
    ∀ fs : List Str, (∀ f ∈ fs, ch ∉ f) → ch ∉ joinSep [c] fs
  | [], _ => by simp [joinSep]
  | [x], h => by simpa [joinSep] using h x (by simp)
  | x :: y :: xs, h => by
    simp only [joinSep, List.append_assoc, List.cons_append, List.nil_append]
    intro hm
    rcases List.mem_append.mp hm with hm | hm
    · exact h x (by simp) hm
    · rcases List.mem_cons.mp hm with hm | hm
      · exact hne hm
      · exact not_mem_joinSep hne (y :: xs)
          (fun f hf => h f (List.mem_cons_of_mem x hf)) hm

theorem parseBranchLine_renderLine (b : Branch) (c : CommitSummary) (parent : Str)
    (hsha : cleanStr c.sha) (hname : cleanStr b.name)
    (hsubj : cleanStr c.subject) (hpar : cleanStr parent)
    (hparent : parent = [] ↔ c.has_parent = false)
    (hup : ∀ u, b.upstream = some u →
      u.ref_name ≠ [] ∧ cleanStr u.ref_name ∧ WFtracking u.tracking)
    (hts_lo : -(2 ^ 63) ≤ c.commit_timestamp)
    (hts_hi : c.commit_timestamp ≤ 2 ^ 63 - 1) :
    parseBranchLine (renderLine b c parent) =
      .ok { is_head := b.is_head, name := b.name, upstream := b.upstream,
            most_recent_commit := some c } := by
  have hfields : splitOnChar '\x00' (renderLine b c parent) =
      [(if b.is_head then "*".toList else " ".toList), c.sha, parent,
       "refs/heads/".toList ++ b.name,
       (match b.upstream with | none => [] | some u => u.ref_name),
       (match b.upstream with | none => [] | some u => renderTrack u.tracking),
       intToChars c.commit_timestamp, c.subject] := by
    apply splitOnChar_joinSep _ (by simp)
    intro f hf
    simp only [List.mem_cons, List.not_mem_nil, or_false] at hf
    rcases hf with rfl | rfl | rfl | rfl | rfl | rfl | rfl | rfl
    · cases b.is_head <;> decide
    · exact hsha.1
    · exact hpar.1
    · intro hm
      rcases List.mem_append.mp hm with hm | hm
      · exact absurd hm (by decide)
      · exact hname.1 hm
    · rcases hu : b.upstream with _ | u
      · simp
      · simpa using (hup u hu).2.1.1
    · rcases hu : b.upstream with _ | u
      · simp
      · simpa using (renderTrack_clean u.tracking).1
    · exact (intToChars_clean _).1
    · exact hsubj.1
  simp only [parseBranchLine, hfields, nextField, exceptBind_ok, exceptBind_err, exceptPure]
  simp only [stripPfx_append, parseI64_intToChars hts_lo hts_hi]
  have hmark : decide ((if b.is_head = true then "*".toList else " ".toList) = "*".toList)
      = b.is_head := by
    cases b.is_head <;> decide
  have hhp : (!List.isEmpty parent) = c.has_parent := by
    cases parent with
    | nil => simp [hparent.mp rfl]
    | cons p ps =>
      have hne : c.has_parent ≠ false := fun hf => by cases hparent.mpr hf
      rw [Ne, Bool.not_eq_false] at hne
      simp [hne]
  rcases hu : b.upstream with _ | u
  · simp only []
    have h0 : parse_upstream_track ([] : Str) = .ok (.Tracked ⟨0, 0⟩) := rfl
    simp only [h0, exceptBind_ok]
    simp [hmark, hhp]
  · obtain ⟨hne, hclean, hwf⟩ := hup u hu
    simp only [parse_renderTrack hwf, exceptBind_ok]
    have hie : u.ref_name.isEmpty = false := by
      cases hr : u.ref_name with
      | nil => exact absurd hr hne
      | cons a l => rfl
    simp [hmark, hhp, hie]

/-- C4: parsing a valid for-each-ref record constructed from a
`Branch` model reproduces that model exactly — the HEAD marker maps to
`is_head`, the `refs/heads/` prefix is stripped from the name, parent
presence becomes `has_parent`, an empty upstream field becomes `none`,
and the tracking status, timestamp and subject are preserved. -/
theorem C4_branch_roundtrip (b : Branch) (c : CommitSummary) (parent : Str)
    (hc : b.most_recent_commit = some c)
    (hsha : cleanStr c.sha) (hname : cleanStr b.name)
    (hsubj : cleanStr c.subject) (hpar : cleanStr parent)
    (hparent : parent = [] ↔ c.has_parent = false)
    (hup : ∀ u, b.upstream = some u →
      u.ref_name ≠ [] ∧ cleanStr u.ref_name ∧ WFtracking u.tracking)
    (hts_lo : -(2 ^ 63) ≤ c.commit_timestamp)
    (hts_hi : c.commit_timestamp ≤ 2 ^ 63 - 1) :
    parse_branch_input (renderLine b c parent) = .ok [b] := by
  have hnl : '\n' ∉ renderLine b c parent := by
    apply not_mem_joinSep (by decide)
    intro f hf
    simp only [List.mem_cons, List.not_mem_nil, or_false] at hf
    rcases hf with rfl | rfl | rfl | rfl | rfl | rfl | rfl | rfl
    · cases b.is_head <;> decide
    · exact hsha.2
    · exact hpar.2
    · intro hm
      rcases List.mem_append.mp hm with hm | hm
      · exact absurd hm (by decide)
      · exact hname.2 hm
    · rcases hu : b.upstream with _ | u
      · simp
      · simpa using (hup u hu).2.1.2
    · rcases hu : b.upstream with _ | u
      · simp
      · simpa using (renderTrack_clean u.tracking).2
    · exact (intToChars_clean _).2
    · exact hsubj.2
  have hlne : renderLine b c parent ≠ [] := by
    unfold renderLine
    exact joinSep_ne_nil _ (by cases b.is_head <;> decide)
  unfold parse_branch_input
  rw [splitOnChar_of_not_mem hnl]
  simp only [parseBranchLines, if_neg hlne,
    parseBranchLine_renderLine b c parent hsha hname hsubj hpar hparent hup hts_lo hts_hi,
    exceptBind_ok]
  rw [← hc]
  rfl

/-- A malformed record in the sense of claim C5: a field is missing
(fewer than 8 NUL-separated fields), the ref-name field lacks the
`refs/heads/` prefix, or the committer-date field is not a base-10
integer. -/
def badRecord (line : Str) : Prop :=
  (splitOnChar '\x00' line).length < 8 ∨
  "refs/heads/".toList.isPrefixOf ((splitOnChar '\x00' line).getD 3 []) = false ∨
  parseI64 ((splitOnChar '\x00' line).getD 6 []) = none

instance (line : Str) : Decidable (badRecord line) := by
  unfold badRecord
  infer_instance

theorem parseBranchLine_ok_not_bad {l : Str} {b : Branch}
    (h : parseBranchLine l = .ok b) : ¬ badRecord l := by
  intro hbad
  unfold badRecord at hbad
  unfold parseBranchLine at h
  generalize hfs : splitOnChar '\x00' l = fs at h hbad
  cases fs with
  | nil => simp [nextField, exceptBind_err] at h
  | cons f1 fs =>
  cases fs with
  | nil => simp [nextField, exceptBind_ok, exceptBind_err] at h
  | cons f2 fs =>
  cases fs with
  | nil => simp [nextField, exceptBind_ok, exceptBind_err] at h
  | cons f3 fs =>
  cases fs with
  | nil => simp [nextField, exceptBind_ok, exceptBind_err] at h
  | cons f4 fs =>
  cases fs with
  | nil =>
    simp only [nextField, exceptBind_ok] at h
    cases hsp : stripPfx "refs/heads/".toList f4 with
    | none => rw [hsp] at h; simp [nextField, exceptBind_ok, exceptBind_err, Except.map] at h
    | some s => rw [hsp] at h; simp [nextField, exceptBind_ok, exceptBind_err, Except.map] at h
  | cons f5 fs =>
  cases fs with
  | nil =>
    simp only [nextField, exceptBind_ok] at h
    cases hsp : stripPfx "refs/heads/".toList f4 with
    | none => rw [hsp] at h; simp [nextField, exceptBind_ok, exceptBind_err, Except.map] at h
    | some s => rw [hsp] at h; simp [nextField, exceptBind_ok, exceptBind_err, Except.map] at h
  | cons f6 fs =>
  cases fs with
  | nil =>
    simp only [nextField, exceptBind_ok] at h
    cases hsp : stripPfx "refs/heads/".toList f4 with
    | none => rw [hsp] at h; simp [nextField, exceptBind_ok, exceptBind_err, Except.map] at h
    | some s =>
      rw [hsp] at h
      simp only [nextField, exceptBind_err, exceptBind_ok] at h
      cases hpt : parse_upstream_track f6 with
      | error e => rw [hpt] at h; simp [nextField, exceptBind_ok, exceptBind_err, Except.map] at h
      | ok t => rw [hpt] at h; simp [nextField, exceptBind_ok, exceptBind_err, Except.map] at h
  | cons f7 fs =>
  simp only [nextField, exceptBind_ok] at h
  cases hsp : stripPfx "refs/heads/".toList f4 with
  | none => rw [hsp] at h; simp [nextField, exceptBind_ok, exceptBind_err, Except.map] at h
  | some s =>
    rw [hsp] at h
    simp only [nextField, exceptBind_err, exceptBind_ok] at h
    cases hpt : parse_upstream_track f6 with
    | error e => rw [hpt] at h; simp [nextField, exceptBind_ok, exceptBind_err, Except.map] at h
    | ok t =>
      rw [hpt] at h
      simp only [nextField, exceptBind_err, exceptBind_ok] at h
      cases hpi : parseI64 f7 with
      | none => rw [hpi] at h; simp [nextField, exceptBind_ok, exceptBind_err, Except.map] at h
      | some d =>
        cases fs with
        | nil => rw [hpi] at h; simp [nextField, exceptBind_ok, exceptBind_err, Except.map] at h
        | cons f8 rest =>
          rcases hbad with hbad | hbad | hbad
          · simp at hbad
            omega
          · rw [show (f1 :: f2 :: f3 :: f4 :: f5 :: f6 :: f7 :: f8 :: rest).getD 3 [] = f4 from rfl] at hbad
            rw [stripPfx_eq_some hsp] at hbad
            cases hbad
          · rw [show (f1 :: f2 :: f3 :: f4 :: f5 :: f6 :: f7 :: f8 :: rest).getD 6 [] = f7 from rfl] at hbad
            rw [hpi] at hbad
            cases hbad

theorem parseBranchLines_ok_all {ls : List Str} {bs : List Branch}
    (h : parseBranchLines ls = .ok bs) :
    ∀ l ∈ ls, l ≠ [] → ∃ b, parseBranchLine l = .ok b := by
  induction ls generalizing bs with
  | nil => simp
  | cons l ls ih =>
    intro l' hl' hne
    by_cases hnil : l = []
    · subst hnil
      simp only [parseBranchLines, if_pos rfl] at h
      rcases List.mem_cons.mp hl' with rfl | hmem
      · exact absurd rfl hne
      · exact ih h l' hmem hne
    · simp only [parseBranchLines, if_neg hnil] at h
      cases hb : parseBranchLine l with
      | error e => rw [hb, exceptBind_err] at h; cases h
      | ok b0 =>
        rw [hb, exceptBind_ok] at h
        cases hrest : parseBranchLines ls with
        | error e => rw [hrest, exceptBind_err] at h; cases h
        | ok bs0 =>
          rcases List.mem_cons.mp hl' with rfl | hmem
          · exact ⟨b0, hb⟩
          · exact ih hrest l' hmem hne

/-! ## Claim theorems -/

/-- C1: `run_remote_command` classifies the single race outcome with no
retry — a credential session resolving first with `CancelledByUser`
yields an error whose payload is exactly `REMOTE_CANCELLED_BY_USER`; a
`Timedout` resolution yields a distinct timeout error; a subprocess
completing first with exit status zero yields `Ok` with the captured
stdout/stderr; a non-zero status yields an error carrying the captured
stderr; the only remaining input (an I/O failure while collecting the
child's output) propagates that failure verbatim, so the listed cases
are exhaustive. -/
theorem C1_run_remote_command_classification (o : ChildOutput) (e : Str) :
    run_remote_command (.askpass .CancelledByUser) = .error REMOTE_CANCELLED_BY_USER ∧
    run_remote_command (.askpass .Timedout) = .error "Connecting to host timed out".toList ∧
    "Connecting to host timed out".toList ≠ REMOTE_CANCELLED_BY_USER ∧
    (o.status = 0 → run_remote_command (.process (.ok o)) = .ok ⟨o.stdout, o.stderr⟩) ∧
    (o.status ≠ 0 →
      run_remote_command (.process (.ok o)) =
        .error ("Operation failed:\n".toList ++ o.stderr)) ∧
    run_remote_command (.process (.error e)) = .error e := by
  refine ⟨rfl, rfl, by decide, ?_, ?_, rfl⟩
  · intro h0
    simp [run_remote_command, h0]
  · intro h0
    simp [run_remote_command, h0]

theorem C1_run_remote_command_classification_witness :
    run_remote_command (.process (.ok ⟨0, "out".toList, "err".toList⟩)) =
      .ok ⟨"out".toList, "err".toList⟩ ∧
    run_remote_command (.process (.ok ⟨1, [], "boom".toList⟩)) =
      .error ("Operation failed:\n".toList ++ "boom".toList) :=
  ⟨(C1_run_remote_command_classification ⟨0, "out".toList, "err".toList⟩ []).2.2.2.1 rfl,
   (C1_run_remote_command_classification ⟨1, [], "boom".toList⟩ []).2.2.2.2.1 (by decide)⟩

/-- C3 counterexample: the claim says a component not matching the
three forms (`gone`, `ahead <N>`, `behind <N>`) is silently ignored
and the call still succeeds, and that `gone` short-circuits regardless
of other components.  But `"[ahead x]"` — whose only component matches
none of the three forms, since `x` is not a decimal integer — makes
the call fail, `"[behind x]"` fails the same way on the `behind `
side, and in `"[ahead x, gone]"` the bad number aborts the call before
`gone` is reached. -/
theorem C3_upstream_track_counterexample :
    (parse_upstream_track "[ahead x]".toList).isOk = false ∧
    (parse_upstream_track "[behind x]".toList).isOk = false ∧
    (parse_upstream_track "[ahead x, gone]".toList).isOk = false := by
  decide

/-- C3 (amended): the empty token yields `Tracked 0 0`; a missing
bracket on either side is a hard error; inside the brackets the
component loop starts from counters `(0, 0)`; a literal `gone`
component short-circuits to `Gone`; a component carrying an
`ahead `/`behind ` prefix followed by a decimal `u32` sets that
counter, but a non-`u32` remainder after such a prefix is a hard error
(which also pre-empts any later `gone`); only components carrying
neither prefix are silently ignored. -/
theorem C3_upstream_track_amended :
    parse_upstream_track [] = .ok (.Tracked ⟨0, 0⟩) ∧
    (∀ s : Str, s ≠ [] → stripPfx "[".toList s = none →
      parse_upstream_track s = .error "missing [".toList) ∧
    (∀ s r : Str, s ≠ [] → stripPfx "[".toList s = some r →
      stripSfx "]".toList r = none →
      parse_upstream_track s = .error "missing [".toList) ∧
    (∀ body : Str, parse_upstream_track ('[' :: (body ++ "]".toList)) =
      trackLoop (splitCommaSpace body) 0 0) ∧
    (∀ (rest : List Str) (a b : Nat),
      trackLoop ("gone".toList :: rest) a b = .ok .Gone) ∧
    (∀ (comp : Str) (rest : List Str) (a b : Nat), comp ≠ "gone".toList →
      stripPfx "ahead ".toList comp = none → stripPfx "behind ".toList comp = none →
      trackLoop (comp :: rest) a b = trackLoop rest a b) ∧
    (∀ (n : Nat) (rest : List Str) (a b : Nat), n < 2 ^ 32 →
      trackLoop (("ahead ".toList ++ natToChars n) :: rest) a b = trackLoop rest n b) ∧
    (∀ (n : Nat) (rest : List Str) (a b : Nat), n < 2 ^ 32 →
      trackLoop (("behind ".toList ++ natToChars n) :: rest) a b = trackLoop rest a n) ∧
    (∀ (comp numStr : Str) (rest : List Str) (a b : Nat), comp ≠ "gone".toList →
      stripPfx "ahead ".toList comp = some numStr → parseU32 numStr = none →
      trackLoop (comp :: rest) a b = .error "invalid digit".toList) ∧
    (∀ (comp numStr : Str) (rest : List Str) (a b : Nat), comp ≠ "gone".toList →
      stripPfx "ahead ".toList comp = none →
      stripPfx "behind ".toList comp = some numStr → parseU32 numStr = none →
      trackLoop (comp :: rest) a b = .error "invalid digit".toList) := by
  refine ⟨rfl, ?_, ?_, ?_, ?_, ?_, ?_, ?_, ?_, ?_⟩
  · intro s hne hnone
    unfold parse_upstream_track
    rw [if_neg hne]
    simp only [hnone]
  · intro s r hne hpre hsfx
    unfold parse_upstream_track
    rw [if_neg hne]
    simp only [hpre, hsfx]
  · intro body
    unfold parse_upstream_track
    rw [if_neg (by simp)]
    have h1 : stripPfx "[".toList ('[' :: (body ++ "]".toList)) =
        some (body ++ "]".toList) := stripPfx_append "[".toList _
    have h2 : stripSfx "]".toList (body ++ "]".toList) = some body :=
      stripSfx_append body "]".toList
    simp only [h1, h2]
  · intro rest a b
    simp [trackLoop]
  · intro comp rest a b hg ha hb
    simp only [trackLoop, if_neg hg, ha, hb]
  · intro n rest a b hn
    have hg : ¬("ahead ".toList ++ natToChars n = "gone".toList) := by
      intro hEq
      have h' := congrArg (fun l => l.head?) hEq
      simp at h'
    have ha : stripPfx "ahead ".toList ("ahead ".toList ++ natToChars n) =
        some (natToChars n) := stripPfx_append _ _
    have hb : stripPfx "behind ".toList ("ahead ".toList ++ natToChars n) = none :=
      stripPfx_eq_none_of_ne_head 'b' "ehind ".toList 'a'
        ("head ".toList ++ natToChars n) (by decide)
    simp only [trackLoop, if_neg hg, ha, hb, parseU32_natToChars hn]
  · intro n rest a b hn
    have hg : ¬("behind ".toList ++ natToChars n = "gone".toList) := by
      intro hEq
      have h' := congrArg (fun l => l.head?) hEq
      simp at h'
    have ha : stripPfx "ahead ".toList ("behind ".toList ++ natToChars n) = none :=
      stripPfx_eq_none_of_ne_head 'a' "head ".toList 'b'
        ("ehind ".toList ++ natToChars n) (by decide)
    have hb : stripPfx "behind ".toList ("behind ".toList ++ natToChars n) =
        some (natToChars n) := stripPfx_append _ _
    simp only [trackLoop, if_neg hg, ha, hb, parseU32_natToChars hn]
  · intro comp numStr rest a b hg hsome hparse
    simp only [trackLoop, if_neg hg, hsome, hparse]
  · intro comp numStr rest a b hg hnone hsome hparse
    simp only [trackLoop, if_neg hg, hnone, hsome, hparse]

theorem C3_upstream_track_amended_witness :
    parse_upstream_track "x]".toList = .error "missing [".toList :=
  C3_upstream_track_amended.2.1 "x]".toList (by decide) (by decide)

/-- C5: an input containing at least one non-empty record with a
missing field, a ref-name lacking the `refs/heads/` prefix, or a
non-integer committer date makes the whole `parse_branch_input` call
return an error — and since the result type carries either an error or
a complete list, no partial list of branches is observable. -/
theorem C5_malformed_record_aborts (input : Str)
    (h : ∃ l ∈ splitOnChar '\n' input, l ≠ [] ∧ badRecord l) :
    ∃ e, parse_branch_input input = .error e := by
  obtain ⟨l, hmem, hne, hbad⟩ := h
  cases hres : parse_branch_input input with
  | error e => exact ⟨e, rfl⟩
  | ok bs =>
    unfold parse_branch_input at hres
    obtain ⟨b, hb⟩ := parseBranchLines_ok_all hres l hmem hne
    exact absurd hbad (parseBranchLine_ok_not_bad hb)

theorem C5_malformed_record_aborts_witness :
    ∃ e, parse_branch_input "*\x00abc".toList = .error e :=
  C5_malformed_record_aborts "*\x00abc".toList (by decide)

/-- C10: `CommitDetails::short_sha` is partial — slicing
`sha[..SHORT_SHA_LENGTH]` panics (modelled as `none`) whenever the sha
has fewer than `SHORT_SHA_LENGTH` characters, and otherwise returns
exactly the first `SHORT_SHA_LENGTH` characters of the sha. -/
theorem C10_short_sha_slice (sha : Str) :
    (sha.length < SHORT_SHA_LENGTH → short_sha sha = none) ∧
    (SHORT_SHA_LENGTH ≤ sha.length →
      ∃ t rest, short_sha sha = some t ∧ t.length = SHORT_SHA_LENGTH ∧
        t ++ rest = sha) := by
  constructor
  · intro h
    unfold short_sha
    rw [if_neg (by omega)]
  · intro h
    refine ⟨sha.take SHORT_SHA_LENGTH, sha.drop SHORT_SHA_LENGTH, ?_, ?_,
      List.take_append_drop _ _⟩
    · unfold short_sha
      rw [if_pos h]
    · rw [List.length_take]
      omega

theorem C10_short_sha_slice_witness :
    short_sha "abc".toList = none ∧
    ∃ t rest, short_sha "060964da".toList = some t ∧ t.length = SHORT_SHA_LENGTH ∧
      t ++ rest = "060964da".toList :=
  ⟨(C10_short_sha_slice "abc".toList).1 (by decide),
   (C10_short_sha_slice "060964da".toList).2 (by decide)⟩

/-- C6: when `for-each-ref` succeeds with zero parseable branch
records and the symbolic-HEAD fallback succeeds resolving to a name,
`branches` returns exactly one branch carrying that (trimmed) name,
`is_head = true`, no upstream, and no commit metadata. -/
theorem C6_branches_empty_fallback (fer sref : ProcOutput)
    (hstatus : fer.status = 0)
    (hempty : parse_branch_input fer.stdout = .ok [])
    (hsym : sref.status = 0) :
    branches (.ok fer) (.ok sref) =
      .ok [{ name := rustTrim sref.stdout, is_head := true, upstream := none,
             most_recent_commit := none }] := by
  unfold branches
  simp only [exceptBind_ok]
  rw [if_neg (by simp [hstatus])]
  simp only [hempty, exceptBind_ok, List.isEmpty_nil, if_true]
  simp [hsym]
  rfl

theorem C6_branches_empty_fallback_witness :
    branches (.ok ⟨0, [], []⟩) (.ok ⟨0, "main\n".toList, []⟩) =
      .ok [{ name := "main".toList, is_head := true, upstream := none,
             most_recent_commit := none }] := by
  have h := C6_branches_empty_fallback ⟨0, [], []⟩ ⟨0, "main\n".toList, []⟩
    rfl (by decide) rfl
  rw [h]
  decide

/-- C7: `load_index_text` and `load_committed_text` return `none`
(never an error — the return type has no error case, every internal
failure is collapsed to `none`) both when there is no entry for the
path and when the entry is a symbolic link, so callers cannot
distinguish the two causes. -/
theorem C7_absence_semantics (st : RepoOracle) (path : Str)
    (idx : Str → Option IndexEntry) (tree : Str → Option TreeEntry) :
    (st.index = some idx → idx path = none → load_index_text st path = none) ∧
    (st.index = some idx → ∀ e, idx path = some e → e.mode = GIT_MODE_SYMLINK →
      load_index_text st path = none) ∧
    (st.headTree = some tree → tree path = none → load_committed_text st path = none) ∧
    (st.headTree = some tree → ∀ e, tree path = some e →
      e.filemode = GIT_MODE_SYMLINK → load_committed_text st path = none) := by
  refine ⟨?_, ?_, ?_, ?_⟩
  · intro hidx hnone
    unfold load_index_text loadIndexLogic
    rw [hidx]
    simp only [exceptBind_ok]
    cases hcp : check_path_to_repo_path_errors path with
    | error e => simp [exceptBind_err]
    | ok u => simp [exceptBind_ok, hnone]
  · intro hidx e hentry hmode
    unfold load_index_text loadIndexLogic
    rw [hidx]
    simp only [exceptBind_ok]
    cases hcp : check_path_to_repo_path_errors path with
    | error e2 => simp [exceptBind_err]
    | ok u =>
      simp only [exceptBind_ok, hentry]
      rw [if_neg (by simp [hmode])]
      rfl
  · intro htree hnone
    unfold load_committed_text
    rw [htree]
    simp [hnone]
  · intro htree e hentry hmode
    unfold load_committed_text
    rw [htree]
    simp only [hentry]
    rw [if_pos hmode]

theorem C7_absence_semantics_witness :
    load_index_text
      { index := some (fun _ => none), headTree := some (fun _ => none),
        blobs := fun _ => none } "a".toList = none ∧
    load_committed_text
      { index := some (fun _ => none), headTree := some (fun _ => none),
        blobs := fun _ => none } "a".toList = none :=
  ⟨(C7_absence_semantics _ "a".toList (fun _ => none) (fun _ => none)).1 rfl rfl,
   (C7_absence_semantics _ "a".toList (fun _ => none) (fun _ => none)).2.2.1 rfl rfl⟩

/-- C8: `FakeGitRepository::set_index_text` succeeds or fails
atomically — on an error the whole state (in particular the index map)
is exactly the pre-call state, and on success the path maps to the
given content (present ⇒ staged, absent ⇒ removed). -/
theorem C8_set_index_text_atomic (st : FakeGitRepositoryState) (path : Str)
    (content : Option Str) :
    ((∃ e, (set_index_text st path content).1 = .error e) →
      (set_index_text st path content).2 = st) ∧
    ((set_index_text st path content).1 = .ok () →
      (set_index_text st path content).2.index_contents path = content) := by
  unfold set_index_text
  cases hsim : st.simulated_index_write_error_message with
  | some m =>
    refine ⟨fun _ => rfl, fun hok => ?_⟩
    simp at hok
  | none =>
    constructor
    · intro ⟨e, he⟩
      simp at he
    · intro _
      cases content <;> simp

theorem C8_set_index_text_atomic_witness :
    (set_index_text
      { path := [], index_contents := fun _ => none,
        simulated_index_write_error_message := some "boom".toList,
        events := [] } "a".toList (some "text".toList)).2 =
      { path := [], index_contents := fun _ => none,
        simulated_index_write_error_message := some "boom".toList,
        events := [] } ∧
    (set_index_text
      { path := [], index_contents := fun _ => none,
        simulated_index_write_error_message := none,
        events := [] } "a".toList (some "text".toList)).2.index_contents "a".toList =
      some "text".toList :=
  ⟨(C8_set_index_text_atomic _ "a".toList (some "text".toList)).1 ⟨"boom".toList, rfl⟩,
   (C8_set_index_text_atomic _ "a".toList (some "text".toList)).2 rfl⟩

/-- C9: `check_path_to_repo_path_errors` raises a structured error
naming the specific violation for the empty path, a rooted path, a
Windows-prefix first component, a `.`-leading path and a `..`-leading
path; it accepts every path whose first component is a normal segment
(such as `a/b`), which orders before `a/c` and is a descendant of the
prefix `a` for the seek comparator. -/
theorem C9_repo_path_validation :
    check_path_to_repo_path_errors [] =
      .error "repo path should not be empty".toList ∧
    check_path_to_repo_path_errors "/abs".toList =
      .error ("repo path `".toList ++ "/abs".toList ++
        "` should be relative".toList) ∧
    (∀ (p pfx : Str), checkFirstComp p (some (.prefixComp pfx)) =
      .error ("repo path `".toList ++ p ++
        "` should be relative, not a windows prefix".toList)) ∧
    check_path_to_repo_path_errors "./x".toList =
      .error ("repo path `".toList ++ "./x".toList ++
        "` should not start with `.`".toList) ∧
    check_path_to_repo_path_errors "../x".toList =
      .error ("repo path `".toList ++ "../x".toList ++
        "` should not start with `..`".toList) ∧
    (∀ p s : Str, firstComponent p = some (.normal s) →
      check_path_to_repo_path_errors p = .ok ()) ∧
    check_path_to_repo_path_errors "a/b".toList = .ok () ∧
    repoPathCmp "a/b".toList "a/c".toList = .lt ∧
    pathStartsWith "a/b".toList "a".toList = true ∧
    cmpCursor "a".toList "a/b".toList = .gt := by
  refine ⟨by decide, by decide, ?_, by decide, by decide, ?_,
    by decide, by decide, by decide, by decide⟩
  · intro p pfx
    rfl
  · intro p s h
    unfold check_path_to_repo_path_errors
    rw [h]
    rfl

theorem C9_repo_path_validation_witness :
    check_path_to_repo_path_errors "x/y".toList = .ok () :=
  C9_repo_path_validation.2.2.2.2.2.1 "x/y".toList "x".toList (by decide)

theorem C4_branch_roundtrip_witness :
    parse_branch_input (renderLine
      { is_head := true, name := "zed-patches".toList,
        upstream := some { ref_name := "refs/remotes/origin/zed-patches".toList,
                           tracking := .Tracked ⟨0, 0⟩ },
        most_recent_commit := some
          { sha := "060964da10574cd9bf06463a53bf6e0769c5c45e".toList,
            subject := "generated protobuf".toList,
            commit_timestamp := 1733187470, has_parent := false } }
      { sha := "060964da10574cd9bf06463a53bf6e0769c5c45e".toList,
        subject := "generated protobuf".toList,
        commit_timestamp := 1733187470, has_parent := false } []) =
      .ok [{ is_head := true, name := "zed-patches".toList,
             upstream := some { ref_name := "refs/remotes/origin/zed-patches".toList,
                                tracking := .Tracked ⟨0, 0⟩ },
             most_recent_commit := some
               { sha := "060964da10574cd9bf06463a53bf6e0769c5c45e".toList,
                 subject := "generated protobuf".toList,
                 commit_timestamp := 1733187470, has_parent := false } }] :=
  C4_branch_roundtrip _ _ _ rfl ⟨by decide, by decide⟩ ⟨by decide, by decide⟩
    ⟨by decide, by decide⟩ ⟨by decide, by decide⟩ (by simp)
    (fun u hu => by
      simp only [Option.some.injEq] at hu
      subst hu
      exact ⟨by decide, ⟨by decide, by decide⟩, ⟨by decide, by decide⟩⟩)
    (by decide) (by decide)

/-! ## Lemmas about the `check_for_pushed_commit` world oracle -/

theorem extractRemote_append (r : Str) :
    extractRemote ("refs/remotes/".toList ++ r ++ "/HEAD".toList) = r := by
  unfold extractRemote
  rw [show ("refs/remotes/".toList ++ r ++ "/HEAD".toList) =
      "refs/remotes/".toList ++ (r ++ "/HEAD".toList) from by simp [List.append_assoc]]
  rw [show (13 : Nat) = ("refs/remotes/".toList).length from rfl, List.drop_left]
  have hlen : (r ++ "/HEAD".toList).length - 5 = r.length := by
    simp [List.length_append]
  rw [hlen, List.take_left]

theorem worldCmd_head (w : PushWorld) :
    worldCmd w ["rev-parse".toList, "HEAD".toList] = .ok w.head := by
  simp [worldCmd]

theorem worldCmd_remotes (w : PushWorld) :
    worldCmd w ["remote".toList] = .ok (joinSep ['\n'] w.remotes) := by
  simp [worldCmd]

theorem worldCmd_symref (w : PushWorld) (r : Str) :
    worldCmd w ["symbolic-ref".toList,
      "refs/remotes/".toList ++ r ++ "/HEAD".toList] =
      (match w.remoteHead r with
       | some s => .ok s
       | none => .error "not a symbolic ref".toList) := by
  simp only [worldCmd]
  rw [extractRemote_append]
  simp

theorem worldCmd_mergeBase (w : PushWorld) (a b : Str) :
    worldCmd w ["merge-base".toList, a, b] =
      (match w.mergeBase a b with
       | some m => .ok m
       | none => .error "no merge base".toList) := by
  simp [worldCmd]

theorem worldCmd_upstream (w : PushWorld) :
    worldCmd w ["rev-parse".toList, "--symbolic-full-name".toList, "@{u}".toList] =
      (match w.upstream with
       | some u => .ok u
       | none => .error "no upstream".toList) := by
  simp [worldCmd]

theorem addIfMatching_world (w : PushWorld) (acc : List Str) (rh : Str)
    (hWF4 : ∀ a b s, w.mergeBase a b = some s → rustTrim s = s) :
    addIfMatching (worldCmd w) w.head acc rh =
      acc ++ (match w.mergeBase w.head rh with
        | none => []
        | some mb =>
          if mb = w.head then
            match stripPfx "refs/remotes/".toList rh with
            | some s => [s]
            | none => []
          else []) := by
  unfold addIfMatching
  rw [worldCmd_mergeBase]
  cases hmb : w.mergeBase w.head rh with
  | none => simp
  | some mb =>
    simp only []
    rw [hWF4 _ _ _ hmb]
    by_cases hmbh : mb = w.head
    · rw [if_pos hmbh, if_pos hmbh]
      cases stripPfx "refs/remotes/".toList rh <;> simp
    · rw [if_neg hmbh, if_neg hmbh]
      simp

theorem mainLoop_foldl (w : PushWorld)
    (hWF3 : ∀ r s, w.remoteHead r = some s → rustTrim s = s)
    (hWF4 : ∀ a b s, w.mergeBase a b = some s → rustTrim s = s) :
    ∀ (rs : List Str) (acc : List Str),
      rs.foldl (fun acc remote =>
        match worldCmd w ["symbolic-ref".toList,
            "refs/remotes/".toList ++ remote ++ "/HEAD".toList] with
        | .ok remoteHead => addIfMatching (worldCmd w) w.head acc (rustTrim remoteHead)
        | .error _ => acc) acc =
      acc ++ rs.filterMap (fun r =>
        match w.remoteHead r with
        | none => none
        | some rh =>
          match w.mergeBase w.head rh with
          | none => none
          | some mb =>
            if mb = w.head then stripPfx "refs/remotes/".toList rh else none)
  | [], acc => by simp
  | r :: rs, acc => by
    simp only [List.foldl_cons, List.filterMap_cons]
    rw [worldCmd_symref]
    cases hrh : w.remoteHead r with
    | none =>
      simp only []
      rw [mainLoop_foldl w hWF3 hWF4 rs acc]
    | some rh =>
      simp only []
      rw [hWF3 _ _ hrh, addIfMatching_world w acc rh hWF4,
        mainLoop_foldl w hWF3 hWF4 rs]
      cases hmb : w.mergeBase w.head rh with
      | none => simp
      | some mb =>
        simp only []
        by_cases hmbh : mb = w.head
        · rw [if_pos hmbh, if_pos hmbh]
          cases stripPfx "refs/remotes/".toList rh <;> simp
        · rw [if_neg hmbh, if_neg hmbh]
          simp

/-- C2 counterexample: with one remote `origin` whose symbolic HEAD is
`refs/remotes/origin/main`, already an ancestor-equal of local HEAD,
and a tracked upstream equal to that same ref, the result contains the
entry `origin/main` twice — the claim's "the result does not contain a
duplicate entry" is false, because the upstream match is appended
without any deduplication. -/
theorem C2_pushed_commit_counterexample :
    check_for_pushed_commit (worldCmd
      { head := "H".toList
        remotes := ["origin".toList]
        remoteHead := fun r =>
          if r = "origin".toList then some "refs/remotes/origin/main".toList else none
        mergeBase := fun a b =>
          if a = "H".toList ∧ b = "refs/remotes/origin/main".toList then
            some "H".toList
          else none
        upstream := some "refs/remotes/origin/main".toList }) =
      .ok ["origin/main".toList, "origin/main".toList] := by
  decide

/-- C2 (amended): a candidate (a resolved remote symbolic HEAD, or
the tracked upstream) is reported iff its merge-base with local HEAD
equals local HEAD and it carries the `refs/remotes/` prefix (which is
then stripped); all matching remote main-branch refs come first, in
remote enumeration order, followed by the tracked upstream whenever it
matches — including when it equals one of the main-branch matches, so
the upstream can appear as a duplicate entry. -/
theorem C2_pushed_commit_amended (w : PushWorld) (hWF : w.WF) :
    check_for_pushed_commit (worldCmd w) =
      .ok (mainBranchMatches w ++ upstreamMatches w) := by
  obtain ⟨h1, h2, h3, h4, h5⟩ := hWF
  unfold check_for_pushed_commit
  rw [worldCmd_head]
  simp only [withContext, exceptBind_ok, h1]
  rw [worldCmd_remotes]
  simp only [withContext, exceptBind_ok]
  rw [rustLines_joinSep w.remotes h2]
  rw [mainLoop_foldl w h3 h4 w.remotes []]
  rw [worldCmd_upstream]
  cases hu : w.upstream with
  | none =>
    simp only []
    unfold upstreamMatches mainBranchMatches
    rw [hu]
    simp [exceptPure]
  | some u =>
    simp only []
    rw [h5 _ hu, addIfMatching_world w _ u h4]
    unfold upstreamMatches mainBranchMatches
    rw [hu]
    cases hmb : w.mergeBase w.head u with
    | none => simp [hmb, exceptPure]
    | some mb =>
      simp only [hmb]
      by_cases hmbh : mb = w.head
      · simp only [if_pos hmbh]
        cases stripPfx "refs/remotes/".toList u <;> simp [exceptPure]
      · simp only [if_neg hmbh]
        simp [exceptPure]

theorem C2_pushed_commit_amended_witness :
    check_for_pushed_commit (worldCmd
      { head := "H".toList
        remotes := []
        remoteHead := fun _ => none
        mergeBase := fun a b =>
          if a = "H".toList ∧ b = "refs/remotes/origin/dev".toList then
            some "H".toList
          else none
        upstream := some "refs/remotes/origin/dev".toList }) =
      .ok ["origin/dev".toList] := by
  have hwf : PushWorld.WF
      { head := "H".toList
        remotes := []
        remoteHead := fun _ => none
        mergeBase := fun a b =>
          if a = "H".toList ∧ b = "refs/remotes/origin/dev".toList then
            some "H".toList
          else none
        upstream := some "refs/remotes/origin/dev".toList } := by
    refine ⟨by decide, by simp, by simp, ?_, ?_⟩
    · intro a b s hs
      simp only [] at hs
      split at hs
      · simp only [Option.some.injEq] at hs
        subst hs
        decide
      · cases hs
    · intro s hs
      simp only [Option.some.injEq] at hs
      subst hs
      decide
  rw [C2_pushed_commit_amended _ hwf]
  decide

end ZedGit
